import Mathlib

/-!
# x2z: connection graph and molecular structure (`src/libx2z/chem.hh`)

A shallow embedding of the classes declared in `chem.hh`:
`MolecOrient` (shape classification), `PrimStruct` (connection graph),
the bond-attribute flags, `ConRec`, `BetaData` and `MolecStruct`.

Atom indices are C++ `int`; they are `Int` at the interface of
`is_connected (int, int)` and in the records, and `Nat` inside the graph
traversals, which only ever range over `0 .. size () - 1`.  The adjacency
storage `ConMat<unsigned>` comes from `array.hh`; its lookup
`operator() (int, int)` is a field of the embedded `PrimStruct`.

`chem.hh` only declares `connected_group`, `is_ring` and the constructor of
`MolecStruct`; their bodies are in `chem.cc`.  Those parts are modelled from
the specification and marked as such.
-/

namespace X2z

/-! ## Molecule types (`MolecOrient`) -/

/-- Molecule types, `enum MT {LINEAR, PLANE, NONLINEAR}`. -/
inductive MT where
  | LINEAR
  | PLANE
  | NONLINEAR
  deriving DecidableEq, Repr

/-- The part of `MolecOrient` the shape queries read: the private member `_mt`. -/
structure MolecOrient where
  mt : MT
  deriving DecidableEq, Repr

namespace MolecOrient

/-- `bool is_plane () const { return _mt == PLANE; }` -/
def is_plane (m : MolecOrient) : Bool := m.mt == MT.PLANE

/-- `bool is_linear () const { return _mt == LINEAR; }` -/
def is_linear (m : MolecOrient) : Bool := m.mt == MT.LINEAR

end MolecOrient

/-! ## Connection graph (`PrimStruct`) -/

/-- The connection graph: the number of atoms (`MolecGeom::size ()`) and the
lookup of the adjacency storage, `ConMat<unsigned>::operator() (int, int)`. -/
structure PrimStruct where
  size : Nat
  cell : Int → Int → Nat

namespace PrimStruct

/-- `bool is_connected (int at0, int at1) const
{ if(at0 == at1) return true; return (*this)(at0, at1); }`;
the `unsigned` cell converts to `bool` as "non-zero". -/
def is_connected (m : PrimStruct) (at0 at1 : Int) : Bool :=
  if at0 = at1 then true else decide (m.cell at0 at1 ≠ 0)

/-- The bonding test the traversals make on two atoms of the structure,
`is_connected (a, b)` at indices of `0 .. size () - 1`. -/
def conn (m : PrimStruct) (a b : Nat) : Bool :=
  m.is_connected (a : Int) (b : Int)

end PrimStruct

/-! ## Traversal of the adjacency relation

`connected_group ()` and `is_ring (int, int)` are declared in `chem.hh` and
defined in `chem.cc`, which is not part of the sources at hand.  They are
modelled from the specification: a traversal of the adjacency relation that
collects atoms in discovery order. -/

/-- Modelled from the spec: the traversal inside `connected_group ()`
("partitions all atom indices into connected components via breadth/depth
traversal of the adjacency relation ... order = discovery order"), whose body
is in the missing `chem.cc`.  `queue` holds the atoms discovered and not yet
expanded, `pool` the atoms not yet discovered; the atom at the head of the
queue is expanded by moving every pool atom adjacent to it to the end of the
queue.  Returns the atoms in discovery order and the pool left over. -/
def grow (c : Nat → Nat → Bool) : Nat → List Nat → List Nat → List Nat × List Nat
  | 0, _, pool => ([], pool)
  | _ + 1, [], pool => ([], pool)
  | fuel + 1, g :: queue, pool =>
    let r := grow c fuel (queue ++ pool.filter (fun p => c p g))
      (pool.filter (fun p => !c p g))
    (g :: r.1, r.2)

/-- Modelled from the spec: the outer loop of `connected_group ()` (body in the
missing `chem.cc`): while undiscovered atoms remain, the first of them seeds a
new component, which is grown by traversal and appended to the result. -/
def groups (c : Nat → Nat → Bool) : Nat → List Nat → List (List Nat)
  | 0, _ => []
  | _ + 1, [] => []
  | fuel + 1, p :: pool =>
    let r := grow c (pool.length + 1) [p] pool
    r.1 :: groups c fuel r.2

/-- The adjacency relation `c` restricted to the atoms of the list `V`. -/
def Within (c : Nat → Nat → Bool) (V : List Nat) (a b : Nat) : Prop :=
  a ∈ V ∧ b ∈ V ∧ c a b = true

/-- The adjacency relation `c` with the bond between `i` and `j` removed. -/
def without (c : Nat → Nat → Bool) (i j : Nat) (a b : Nat) : Bool :=
  c a b && !((a == i && b == j) || (a == j && b == i))

/-- Modelled from the spec: the traversal that builds the connectivity path
inside the constructor of `MolecStruct` (body in the missing `chem.cc`): "build
a rooted spanning tree over all atoms using the adjacency graph".  `stack` holds
the discovered atoms not yet placed, each with the atom it was discovered from
(its reference atom), `pool` the atoms not yet discovered.  The entry on top of
the stack is placed next, and the pool atoms adjacent to it are put on top of
the stack, so that the atoms below a placed atom follow it as one block.
Returns the pairs (atom, reference atom) in placement order and the pool left
over. -/
def span (c : Nat → Nat → Bool) :
    Nat → List (Nat × Nat) → List Nat → List (Nat × Nat) × List Nat
  | 0, _, pool => ([], pool)
  | _ + 1, [], pool => ([], pool)
  | fuel + 1, (a, r) :: stack, pool =>
    let t := span c fuel ((pool.filter (fun p => c p a)).map (fun p => (p, a)) ++ stack)
      (pool.filter (fun p => !c p a))
    ((a, r) :: t.1, t.2)

/-- Every reference atom of the sequence is in `seen` or is the atom of an
earlier pair of the sequence, and every pair is adjacent under `c`. -/
def Tree (c : Nat → Nat → Bool) : List Nat → List (Nat × Nat) → Prop
  | _, [] => True
  | seen, (a, r) :: rest => r ∈ seen ∧ c a r = true ∧ Tree c (a :: seen) rest

namespace PrimStruct

/-- Modelled from the spec: `std::list<std::list<int> > connected_group () const`
(declared in `chem.hh`, body in the missing `chem.cc`): "partitions all atom
indices into connected components via breadth/depth traversal of the adjacency
relation; returns the list of components (each an ordered list of atom indices,
order = discovery order)". -/
def connected_group (m : PrimStruct) : List (List Nat) :=
  groups m.conn m.size (List.range m.size)

/-- The body of `bool is_connected () const
{ if(connected_group().size() == 1) return true; return false; }`
as a function of the list that `connected_group ()` returns. -/
def is_connected_of (groups : List (List Nat)) : Bool :=
  if groups.length = 1 then true else false

/-- `bool is_connected () const`, the whole-molecule test. -/
def is_connected_all (m : PrimStruct) : Bool :=
  is_connected_of m.connected_group

/-- The adjacency structure is symmetric on the atoms of the structure. -/
def Symmetric (m : PrimStruct) : Prop :=
  ∀ a b : Nat, a < m.size → b < m.size → m.cell (a : Int) (b : Int) = m.cell (b : Int) (a : Int)

/-- A structure of four atoms with the bonds 0-1, 0-2, 1-2 (a three-membered
ring) and 0-3. -/
def ringTail : PrimStruct :=
  { size := 4, cell := fun a b => if a ≠ b ∧ a + b ≤ 3 then 1 else 0 }

/-- A structure of four atoms with the bonds 0-2 and 1-3. -/
def twoPairs : PrimStruct :=
  { size := 4, cell := fun a b => if a + b = 2 ∨ a + b = 4 then 1 else 0 }

/-- Atoms `a` and `b` of the structure form a bonded pair. -/
def Bonded (m : PrimStruct) (a b : Nat) : Prop :=
  a < m.size ∧ b < m.size ∧ a ≠ b ∧ m.cell (a : Int) (b : Int) ≠ 0

/-- Atom `b` is reachable from atom `a` through bonded pairs. -/
def Reachable (m : PrimStruct) (a b : Nat) : Prop :=
  Relation.ReflTransGen m.Bonded a b

/-- Modelled from the spec: `bool is_ring (int, int) const` (declared in
`chem.hh`, body in the missing `chem.cc`): "true iff the bond (i,j) lies on
some cycle — equivalently, a path between i and j exists in the adjacency
graph with that edge removed".  The traversal starts at `i` over the adjacency
relation without the bond and reports whether it discovers `j`. -/
def is_ring (m : PrimStruct) (i j : Nat) : Bool :=
  decide (j ∈ (grow (without m.conn i j) (m.size + 1) [i] ((List.range m.size).erase i)).1)

/-- The adjacency graph of the structure: atoms joined by bonded pairs. -/
def graph (m : PrimStruct) : SimpleGraph Nat :=
  SimpleGraph.fromRel m.Bonded

end PrimStruct

/-! ## Bond attributes, `ConRec`, `BetaData` -/

/-- `GEN_BOND = 0`, generic bond. -/
def GEN_BOND : Nat := 0
/-- `LIN_BOND = 1`, linear bond. -/
def LIN_BOND : Nat := 1
/-- `ROT_BOND = 2`, rotational bond. -/
def ROT_BOND : Nat := 2
/-- `BET_BOND = 4`, beta-scission bond. -/
def BET_BOND : Nat := 4

/-- The three attribute flags that can be set on a bond. -/
def bondFlags : Finset Nat := {LIN_BOND, ROT_BOND, BET_BOND}

instance lorCommutative : Std.Commutative (fun a b : Nat => a ||| b) := ⟨Nat.lor_comm⟩

instance lorAssociative : Std.Associative (fun a b : Nat => a ||| b) := ⟨Nat.lor_assoc⟩

/-- Bitwise OR of the flags of a set, starting from `GEN_BOND`. -/
def attrOf (S : Finset Nat) : Nat :=
  S.fold (fun a b : Nat => a ||| b) GEN_BOND id

/-- Connectivity record, `struct ConRec`. -/
structure ConRec where
  atom : Int
  cref : Int
  begin_ : Int
  end_ : Int
  attr : Int
  deriving DecidableEq, Repr

/-- `ConRec (int a, int c) : atom(a), cref(c), begin(-1), end(-1), attr(GEN_BOND) {}` -/
def ConRec.new (a c : Int) : ConRec :=
  { atom := a, cref := c, begin_ := -1, end_ := -1, attr := GEN_BOND }

/-- Beta-scission record, `struct BetaData`. -/
structure BetaData where
  radical : Int
  primary : Int
  secondary : Int
  isring : Bool
  deriving DecidableEq, Repr

namespace BetaData

/-- `BetaData () : radical(-1), primary(-1), secondary(-1), isring(false) {}` -/
def new : BetaData :=
  { radical := -1, primary := -1, secondary := -1, isring := false }

/-- `operator bool () const { if(radical < 0) return false; return true; }` -/
def toBool (b : BetaData) : Bool :=
  if b.radical < 0 then false else true

end BetaData

/-! ## Molecular structure (`MolecStruct`)

The constructor `MolecStruct (const PrimStruct&, ...)` is declared in `chem.hh`
and defined in the missing `chem.cc`.  The part of it that the connectivity
path depends on is modelled from the specification.  The resonance enumeration
is not modelled: its result, the member `_resonance`, is an input of the
model.  The rotational bond map `_rotvar` is not modelled: the header keys it
by an `int` whose relation to a bond is fixed in the missing `chem.cc`. -/

namespace PrimStruct

/-- Number of atoms bonded to atom `a`. -/
def degree (m : PrimStruct) (a : Nat) : Nat :=
  ((List.range m.size).filter (fun b => b != a && m.conn a b)).length

/-- Modelled from the spec: the root of the connectivity path, chosen in the
missing constructor body: the "lowest-index atom among those with maximal
connectivity degree, ties broken by index". -/
def root (m : PrimStruct) : Nat :=
  (List.range m.size).foldl (fun best a => if m.degree best < m.degree a then a else best) 0

/-- Modelled from the spec: the (atom, reference atom) pairs of the connectivity
path built in the missing constructor body, "one entry per atom (except the
root)": the traversal `span` is started at the root and the root itself gets no
record. -/
def cpath_pairs (m : PrimStruct) : List (Nat × Nat) :=
  (span m.conn (m.size + 1) [(m.root, m.root)] ((List.range m.size).erase m.root)).1.tail

end PrimStruct

/-- The members of `MolecStruct` that are modelled: the base `PrimStruct`,
`_resonance` and `_cpath`. -/
structure MolecStruct where
  prim : PrimStruct
  resonance : List (Int → Int → Nat)
  cpath : List ConRec

namespace MolecStruct

/-- Modelled from the spec: the constructor
`MolecStruct (const PrimStruct&, const std::set<std::set<int> >&)` (body in the
missing `chem.cc`), as far as `_cpath` goes.  A disconnected
molecule "is a construction-time fatal error" (`none`); the records of the
connectivity path are made by `ConRec (a, c)`. -/
def make (prim : PrimStruct) (resonance : List (Int → Int → Nat)) : Option MolecStruct :=
  if prim.is_connected_all then
    some { prim := prim
           resonance := resonance
           cpath := prim.cpath_pairs.map (fun e => ConRec.new (e.1 : Int) (e.2 : Int)) }
  else none

end MolecStruct

/-- A chain of four atoms, 0-1-2-3. -/
def PrimStruct.chain4 : PrimStruct :=
  { size := 4, cell := fun a b => if a + 1 = b ∨ b + 1 = a then 1 else 0 }

/-- The molecular structure built on `chain4` with the single-bond skeleton as
its only resonance structure. -/
def MolecStruct.chain4 : MolecStruct :=
  { prim := PrimStruct.chain4
    resonance := [PrimStruct.chain4.cell]
    cpath := [ConRec.new 0 1, ConRec.new 2 1, ConRec.new 3 2] }

/-! ## Theorems -/

/-- C8: the shape classification is exclusive: `is_linear` and `is_plane` are
never both true, a molecule for which both are false is `NONLINEAR`,
`is_linear` holds exactly for `LINEAR` and `is_plane` exactly for `PLANE`. -/
theorem shape_classification_exclusive (m : MolecOrient) :
    ¬ (m.is_linear = true ∧ m.is_plane = true) ∧
    (m.is_linear = false ∧ m.is_plane = false → m.mt = MT.NONLINEAR) ∧
    (m.is_linear = true ↔ m.mt = MT.LINEAR) ∧
    (m.is_plane = true ↔ m.mt = MT.PLANE) := by
  rcases m with ⟨mt⟩
  cases mt <;> simp [MolecOrient.is_linear, MolecOrient.is_plane]

theorem shape_classification_exclusive_witness :
    (MolecOrient.mk MT.NONLINEAR).is_linear = false ∧
    (MolecOrient.mk MT.NONLINEAR).is_plane = false ∧
    (MolecOrient.mk MT.NONLINEAR).mt = MT.NONLINEAR :=
  ⟨by decide, by decide,
    (shape_classification_exclusive ⟨MT.NONLINEAR⟩).2.1 ⟨by decide, by decide⟩⟩

/-- C9: a `BetaData` record converts to true if and only if its radical index
is non-negative, whatever its other fields; the default-constructed record has
radical = primary = secondary = -1, isring = false, and converts to false. -/
theorem betadata_populated_iff :
    (∀ b : BetaData, b.toBool = true ↔ 0 ≤ b.radical) ∧
    (∀ (r p p' s s' : Int) (g g' : Bool),
      BetaData.toBool ⟨r, p, s, g⟩ = BetaData.toBool ⟨r, p', s', g'⟩) ∧
    BetaData.new.radical = -1 ∧ BetaData.new.primary = -1 ∧
    BetaData.new.secondary = -1 ∧ BetaData.new.isring = false ∧
    BetaData.new.toBool = false := by
  refine ⟨?_, ?_, rfl, rfl, rfl, rfl, ?_⟩
  · intro b
    unfold BetaData.toBool
    by_cases h : b.radical < 0
    · simp [h]
    · simp [h, not_lt.mp h]
  · intro r p p' s s' g g'
    rfl
  · decide

/-- C1: `is_connected (at0, at1)` is true when `at0 == at1`, whatever the
diagonal cell holds, and for `at0 != at1` it is true exactly when the
adjacency cell `(at0, at1)` is non-zero. -/
theorem is_connected_pair (m : PrimStruct) (at0 at1 : Int) :
    (∀ cell : Int → Int → Nat,
      PrimStruct.is_connected ⟨m.size, cell⟩ at0 at0 = true) ∧
    (m.is_connected at0 at1 = true ↔ at0 = at1 ∨ m.cell at0 at1 ≠ 0) ∧
    (at0 ≠ at1 → (m.is_connected at0 at1 = true ↔ m.cell at0 at1 ≠ 0)) := by
  refine ⟨?_, ?_, ?_⟩
  · intro cell
    simp [PrimStruct.is_connected]
  · by_cases h : at0 = at1 <;> simp [PrimStruct.is_connected, h]
  · intro h
    simp [PrimStruct.is_connected, h]

theorem is_connected_pair_witness :
    (0 : Int) ≠ 2 ∧
    (PrimStruct.twoPairs.is_connected 0 2 = true ↔ PrimStruct.twoPairs.cell 0 2 ≠ 0) ∧
    PrimStruct.twoPairs.is_connected 0 2 = true ∧
    PrimStruct.twoPairs.is_connected 0 1 = false :=
  ⟨by decide, (is_connected_pair PrimStruct.twoPairs 0 2).2.2 (by decide), by decide, by decide⟩

/-- C10: `GEN_BOND` is 0, the identity of bitwise OR and the attribute of a
fresh `ConRec`; `LIN_BOND`, `ROT_BOND`, `BET_BOND` are distinct, non-zero and
pairwise disjoint; for every subset `S` of the three flags the OR of `S` has
flag `F` set exactly when `F ∈ S`, and distinct subsets give distinct values. -/
theorem bond_flags_bitset :
    GEN_BOND = 0 ∧
    (∀ x : Nat, GEN_BOND ||| x = x ∧ x ||| GEN_BOND = x) ∧
    (∀ a c : Int, (ConRec.new a c).attr = (GEN_BOND : Int)) ∧
    (LIN_BOND ≠ 0 ∧ ROT_BOND ≠ 0 ∧ BET_BOND ≠ 0) ∧
    (LIN_BOND ≠ ROT_BOND ∧ LIN_BOND ≠ BET_BOND ∧ ROT_BOND ≠ BET_BOND) ∧
    (LIN_BOND &&& ROT_BOND = 0 ∧ LIN_BOND &&& BET_BOND = 0 ∧
      ROT_BOND &&& BET_BOND = 0) ∧
    (∀ S ∈ bondFlags.powerset, ∀ F ∈ bondFlags, (attrOf S &&& F ≠ 0 ↔ F ∈ S)) ∧
    (∀ S ∈ bondFlags.powerset, ∀ T ∈ bondFlags.powerset,
      attrOf S = attrOf T → S = T) := by
  refine ⟨rfl, ?_, ?_, by decide, by decide, by decide, by decide, by decide⟩
  · intro x
    simp [GEN_BOND]
  · intro a c
    rfl

/-! ### The traversal `grow` -/

theorem filter_length_split (f : Nat → Bool) (l : List Nat) :
    (l.filter f).length + (l.filter (fun x => !f x)).length = l.length := by
  have h := (List.filter_append_perm f l).length_eq
  simpa [List.length_append] using h

theorem grow_snd_sublist (c : Nat → Nat → Bool) :
    ∀ (fuel : Nat) (queue pool : List Nat), (grow c fuel queue pool).2.Sublist pool := by
  intro fuel
  induction fuel with
  | zero => intro queue pool; simp [grow]
  | succ n ih =>
    intro queue pool
    cases queue with
    | nil => simp [grow]
    | cons g queue =>
      simp only [grow]
      exact (ih _ _).trans (List.filter_sublist pool)

theorem grow_perm (c : Nat → Nat → Bool) :
    ∀ (fuel : Nat) (queue pool : List Nat), queue.length + pool.length ≤ fuel →
      ((grow c fuel queue pool).1 ++ (grow c fuel queue pool).2).Perm (queue ++ pool) := by
  intro fuel
  induction fuel with
  | zero =>
    intro queue pool h
    have hq : queue = [] := List.length_eq_zero.mp (by omega)
    subst hq
    simp [grow]
  | succ n ih =>
    intro queue pool h
    cases queue with
    | nil => simp [grow]
    | cons g queue =>
      simp only [grow, List.cons_append]
      refine List.Perm.cons g ?_
      have hlen := filter_length_split (fun p => c p g) pool
      have h1 := ih (queue ++ pool.filter (fun p => c p g)) (pool.filter (fun p => !c p g))
        (by simp only [List.length_append, List.length_cons] at h ⊢; omega)
      refine h1.trans ?_
      rw [List.append_assoc]
      exact List.Perm.append_left queue (List.filter_append_perm (fun p => c p g) pool)

theorem grow_closed (c : Nat → Nat → Bool) :
    ∀ (fuel : Nat) (queue pool : List Nat), queue.length + pool.length ≤ fuel →
      ∀ x ∈ (grow c fuel queue pool).1, ∀ y ∈ (grow c fuel queue pool).2, c y x = false := by
  intro fuel
  induction fuel with
  | zero => intro queue pool _ x hx; simp [grow] at hx
  | succ n ih =>
    intro queue pool h
    cases queue with
    | nil => intro x hx; simp [grow] at hx
    | cons g queue =>
      simp only [grow, List.mem_cons]
      have hlen := filter_length_split (fun p => c p g) pool
      have hfuel : (queue ++ pool.filter (fun p => c p g)).length
          + (pool.filter (fun p => !c p g)).length ≤ n := by
        simp only [List.length_append, List.length_cons] at h ⊢; omega
      intro x hx y hy
      rcases hx with rfl | hx
      · have hy' := (grow_snd_sublist c n _ _).subset hy
        simpa using (List.mem_filter.mp hy').2
      · exact ih _ _ hfuel x hx y hy

theorem grow_sound (c : Nat → Nat → Bool) :
    ∀ (fuel : Nat) (queue pool : List Nat), ∀ x ∈ (grow c fuel queue pool).1,
      ∃ q ∈ queue, Relation.ReflTransGen (fun a b => c b a = true ∧ b ∈ pool) q x := by
  intro fuel
  induction fuel with
  | zero => intro queue pool x hx; simp [grow] at hx
  | succ n ih =>
    intro queue pool
    cases queue with
    | nil => intro x hx; simp [grow] at hx
    | cons g queue =>
      simp only [grow, List.mem_cons]
      intro x hx
      rcases hx with rfl | hx
      · exact ⟨x, Or.inl rfl, Relation.ReflTransGen.refl⟩
      · obtain ⟨q, hq, hpath⟩ := ih _ _ x hx
        have hmono : Relation.ReflTransGen (fun a b => c b a = true ∧ b ∈ pool) q x :=
          hpath.mono (fun a b hab => ⟨hab.1, (List.mem_filter.mp hab.2).1⟩)
        rcases List.mem_append.mp hq with hq | hq
        · exact ⟨q, Or.inr hq, hmono⟩
        · have hq' := List.mem_filter.mp hq
          exact ⟨g, Or.inl rfl, Relation.ReflTransGen.head ⟨hq'.2, hq'.1⟩ hmono⟩

theorem grow_fst_ne_nil (c : Nat → Nat → Bool) (fuel : Nat) (g : Nat) (queue pool : List Nat) :
    (grow c (fuel + 1) (g :: queue) pool).1 ≠ [] := by
  simp [grow]

/-! ### The components `groups` -/

theorem within_mono (c : Nat → Nat → Bool) {V W : List Nat} (h : V ⊆ W) {a b : Nat}
    (hab : Relation.ReflTransGen (Within c V) a b) :
    Relation.ReflTransGen (Within c W) a b :=
  hab.mono (fun _ _ hxy => ⟨h hxy.1, h hxy.2.1, hxy.2.2⟩)

theorem within_symmetric (c : Nat → Nat → Bool) (V : List Nat)
    (hsym : ∀ a b, a ∈ V → b ∈ V → c a b = c b a) :
    Symmetric (Relation.ReflTransGen (Within c V)) := by
  apply Relation.ReflTransGen.symmetric
  intro a b hab
  exact ⟨hab.2.1, hab.1, by rw [hsym b a hab.2.1 hab.1]; exact hab.2.2⟩

theorem discovery_path_within (c : Nat → Nat → Bool) (V : List Nat)
    (hsym : ∀ a b, a ∈ V → b ∈ V → c a b = c b a) {q x : Nat} (hq : q ∈ V)
    (h : Relation.ReflTransGen (fun a b => c b a = true ∧ b ∈ V) q x) :
    Relation.ReflTransGen (Within c V) q x ∧ x ∈ V := by
  induction h with
  | refl => exact ⟨Relation.ReflTransGen.refl, hq⟩
  | tail _ hbc ih =>
    refine ⟨ih.1.tail ⟨ih.2, hbc.2, ?_⟩, hbc.2⟩
    rw [hsym _ _ ih.2 hbc.2]
    exact hbc.1

theorem grow_seed_connected (c : Nat → Nat → Bool) (fuel p : Nat) (pool : List Nat)
    (hsym : ∀ a b, a ∈ p :: pool → b ∈ p :: pool → c a b = c b a) :
    ∀ x ∈ (grow c fuel [p] pool).1, ∀ y ∈ (grow c fuel [p] pool).1,
      Relation.ReflTransGen (Within c (p :: pool)) x y := by
  have key : ∀ x ∈ (grow c fuel [p] pool).1,
      Relation.ReflTransGen (Within c (p :: pool)) p x := by
    intro x hx
    obtain ⟨q, hq, hpath⟩ := grow_sound c fuel [p] pool x hx
    have hqp : q = p := by simpa using hq
    subst hqp
    have hpath' : Relation.ReflTransGen (fun a b => c b a = true ∧ b ∈ q :: pool) q x :=
      hpath.mono (fun a b hab => ⟨hab.1, List.mem_cons_of_mem _ hab.2⟩)
    exact (discovery_path_within c (q :: pool) hsym (List.mem_cons_self _ _) hpath').1
  intro x hx y hy
  exact (within_symmetric c _ hsym (key x hx)).trans (key y hy)

theorem groups_perm (c : Nat → Nat → Bool) :
    ∀ (fuel : Nat) (pool : List Nat), pool.length ≤ fuel →
      (groups c fuel pool).flatten.Perm pool := by
  intro fuel
  induction fuel with
  | zero =>
    intro pool h
    have hp : pool = [] := List.length_eq_zero.mp (by omega)
    subst hp
    simp [groups]
  | succ n ih =>
    intro pool h
    cases pool with
    | nil => simp [groups]
    | cons p pool =>
      simp only [groups, List.flatten_cons]
      have hsub := (grow_snd_sublist c (pool.length + 1) [p] pool).length_le
      have h1 := ih (grow c (pool.length + 1) [p] pool).2
        (by simp only [List.length_cons] at h; omega)
      have h2 := grow_perm c (pool.length + 1) [p] pool (by simp only [List.length_cons, List.length_nil]; omega)
      exact (List.Perm.append_left _ h1).trans (by simpa using h2)

theorem groups_ne_nil (c : Nat → Nat → Bool) :
    ∀ (fuel : Nat) (pool : List Nat), ∀ G ∈ groups c fuel pool, G ≠ [] := by
  intro fuel
  induction fuel with
  | zero => intro pool G hG; simp [groups] at hG
  | succ n ih =>
    intro pool
    cases pool with
    | nil => intro G hG; simp [groups] at hG
    | cons p pool =>
      simp only [groups, List.mem_cons]
      intro G hG
      rcases hG with rfl | hG
      · exact grow_fst_ne_nil c _ p [] pool
      · exact ih _ G hG

theorem groups_connected (c : Nat → Nat → Bool) :
    ∀ (fuel : Nat) (pool : List Nat), (∀ a b, a ∈ pool → b ∈ pool → c a b = c b a) →
      ∀ G ∈ groups c fuel pool, ∀ x ∈ G, ∀ y ∈ G,
        Relation.ReflTransGen (Within c pool) x y := by
  intro fuel
  induction fuel with
  | zero => intro pool _ G hG; simp [groups] at hG
  | succ n ih =>
    intro pool
    cases pool with
    | nil => intro _ G hG; simp [groups] at hG
    | cons p pool =>
      simp only [groups]
      intro hsym G hG x hx y hy
      have hsub : (grow c (pool.length + 1) [p] pool).2 ⊆ p :: pool :=
        fun z hz => List.mem_cons_of_mem _ ((grow_snd_sublist c _ _ _).subset hz)
      rcases List.mem_cons.mp hG with rfl | hG
      · exact grow_seed_connected c _ p pool hsym x hx y hy
      · exact within_mono c hsub
          (ih _ (fun a b ha hb => hsym a b (hsub ha) (hsub hb)) G hG x hx y hy)

theorem groups_closed (c : Nat → Nat → Bool) :
    ∀ (fuel : Nat) (pool : List Nat), pool.length ≤ fuel →
      (∀ a b, a ∈ pool → b ∈ pool → c a b = c b a) →
      ∀ G ∈ groups c fuel pool, ∀ x ∈ G, ∀ y ∈ pool, c x y = true → y ∈ G := by
  intro fuel
  induction fuel with
  | zero => intro pool _ _ G hG; simp [groups] at hG
  | succ n ih =>
    intro pool
    cases pool with
    | nil => intro _ _ G hG; simp [groups] at hG
    | cons p pool =>
      simp only [groups]
      intro hfuel hsym G hG x hx y hy hxy
      have hsub : (grow c (pool.length + 1) [p] pool).2 ⊆ p :: pool :=
        fun z hz => List.mem_cons_of_mem _ ((grow_snd_sublist c _ _ _).subset hz)
      have hlen := (grow_snd_sublist c (pool.length + 1) [p] pool).length_le
      have hperm := grow_perm c (pool.length + 1) [p] pool (by simp only [List.length_cons, List.length_nil]; omega)
      have hclosed := grow_closed c (pool.length + 1) [p] pool (by simp only [List.length_cons, List.length_nil]; omega)
      have hfst : (grow c (pool.length + 1) [p] pool).1 ⊆ p :: pool := by
        intro z hz
        have := hperm.subset (List.mem_append_left _ hz)
        simpa using this
      have hy' : y ∈ (grow c (pool.length + 1) [p] pool).1 ∨
          y ∈ (grow c (pool.length + 1) [p] pool).2 := by
        have : y ∈ [p] ++ pool := by simpa using hy
        exact List.mem_append.mp (hperm.symm.subset this)
      have hrest := groups_perm c n (grow c (pool.length + 1) [p] pool).2
        (by simp only [List.length_cons] at hfuel; omega)
      rcases List.mem_cons.mp hG with rfl | hG
      · rcases hy' with hy1 | hy2
        · exact hy1
        · have hf := hclosed x hx y hy2
          rw [hsym y x (hsub hy2) (hfst hx)] at hf
          rw [hf] at hxy
          exact absurd hxy (by decide)
      · have hxrest : x ∈ (grow c (pool.length + 1) [p] pool).2 :=
          hrest.subset (List.mem_flatten.mpr ⟨G, hG, hx⟩)
        rcases hy' with hy1 | hy2
        · have hf := hclosed y hy1 x hxrest
          rw [hf] at hxy
          exact absurd hxy (by decide)
        · exact ih _ (by simp only [List.length_cons] at hfuel; omega)
            (fun a b ha hb => hsym a b (hsub ha) (hsub hb)) G hG x hx y hy2 hxy

/-! ### `connected_group ()` -/

theorem conn_symm (m : PrimStruct) (hs : m.Symmetric) :
    ∀ a b, a ∈ List.range m.size → b ∈ List.range m.size → m.conn a b = m.conn b a := by
  intro a b ha hb
  have h := hs a b (List.mem_range.mp ha) (List.mem_range.mp hb)
  by_cases hab : a = b
  · subst hab; rfl
  · have hba : ¬ b = a := fun h => hab h.symm
    simp [PrimStruct.conn, PrimStruct.is_connected, hab, hba, h]

theorem reachable_iff_within (m : PrimStruct) (a b : Nat) :
    m.Reachable a b ↔ Relation.ReflTransGen (Within m.conn (List.range m.size)) a b := by
  constructor
  · intro h
    refine Relation.ReflTransGen.mono ?_ h
    intro x y hxy
    refine ⟨List.mem_range.mpr hxy.1, List.mem_range.mpr hxy.2.1, ?_⟩
    simp [PrimStruct.conn, PrimStruct.is_connected, hxy.2.2.1, hxy.2.2.2]
  · intro h
    induction h with
    | refl => exact Relation.ReflTransGen.refl
    | @tail y z _ hbc ih =>
      by_cases hyz : y = z
      · subst hyz; exact ih
      · refine ih.tail ⟨List.mem_range.mp hbc.1, List.mem_range.mp hbc.2.1, hyz, ?_⟩
        have := hbc.2.2
        simpa [PrimStruct.conn, PrimStruct.is_connected, hyz] using this

theorem twoPairs_symmetric : PrimStruct.twoPairs.Symmetric := by
  intro a b _ _
  simp [PrimStruct.twoPairs, add_comm]

theorem connected_group_perm (m : PrimStruct) :
    m.connected_group.flatten.Perm (List.range m.size) :=
  groups_perm m.conn m.size (List.range m.size) (by simp)

theorem connected_group_reach (m : PrimStruct) (hs : m.Symmetric) :
    ∀ G ∈ m.connected_group, ∀ i ∈ G, ∀ j, j ∈ G ↔ m.Reachable i j := by
  intro G hG i hi j
  rw [reachable_iff_within]
  constructor
  · intro hj
    exact groups_connected m.conn m.size _ (conn_symm m hs) G hG i hi j hj
  · intro h
    induction h with
    | refl => exact hi
    | tail _ hbc ih =>
      exact groups_closed m.conn m.size _ (by simp) (conn_symm m hs) G hG _ ih _
        hbc.2.1 hbc.2.2

/-- C3: for a symmetric adjacency structure `connected_group ()` partitions the
atom indices `0 .. size () - 1` into connected components: the lists together
hold every atom index exactly once, no list is empty, and two atoms are in the
same list if and only if one is reachable from the other through bonded
pairs. -/
theorem connected_group_partition (m : PrimStruct) (hs : m.Symmetric) :
    m.connected_group.flatten.Perm (List.range m.size) ∧
    (∀ i, i < m.size → (m.connected_group.map (List.count i)).sum = 1) ∧
    (∀ G ∈ m.connected_group, ∀ i ∈ G, i < m.size) ∧
    (∀ G ∈ m.connected_group, G ≠ []) ∧
    (∀ G ∈ m.connected_group, ∀ i ∈ G, ∀ j, j ∈ G ↔ m.Reachable i j) := by
  have hperm := connected_group_perm m
  refine ⟨hperm, ?_, ?_, groups_ne_nil m.conn m.size (List.range m.size),
    connected_group_reach m hs⟩
  · intro i hi
    rw [← List.count_flatten, hperm.count_eq]
    exact List.count_eq_one_of_mem (List.nodup_range _) (List.mem_range.mpr hi)
  · intro G hG i hi
    exact List.mem_range.mp (hperm.subset (List.mem_flatten.mpr ⟨G, hG, hi⟩))

theorem connected_group_partition_witness :
    PrimStruct.twoPairs.connected_group = [[0, 2], [1, 3]] ∧
    PrimStruct.twoPairs.connected_group.flatten.Perm (List.range 4) ∧
    (∀ G ∈ PrimStruct.twoPairs.connected_group, ∀ i ∈ G, ∀ j,
      j ∈ G ↔ PrimStruct.twoPairs.Reachable i j) :=
  ⟨by decide,
    (connected_group_partition PrimStruct.twoPairs twoPairs_symmetric).1,
    (connected_group_partition PrimStruct.twoPairs twoPairs_symmetric).2.2.2.2⟩

/-- C2: `is_connected ()` returns true if and only if `connected_group ()`
returns exactly one component; it returns false for zero components and for
two or more components. -/
theorem is_connected_iff_one_component (groups : List (List Nat)) :
    (PrimStruct.is_connected_of groups = true ↔ groups.length = 1) ∧
    PrimStruct.is_connected_of [] = false ∧
    (2 ≤ groups.length → PrimStruct.is_connected_of groups = false) ∧
    (∀ m : PrimStruct, m.is_connected_all = true ↔ m.connected_group.length = 1) := by
  refine ⟨by simp [PrimStruct.is_connected_of], by decide, ?_, ?_⟩
  · intro h
    have : groups.length ≠ 1 := by omega
    simp [PrimStruct.is_connected_of, this]
  · intro m
    simp [PrimStruct.is_connected_all, PrimStruct.is_connected_of]

theorem is_connected_iff_one_component_witness :
    2 ≤ [[0, 2], [1, 3]].length ∧
    PrimStruct.is_connected_of [[0, 2], [1, 3]] = false ∧
    PrimStruct.twoPairs.is_connected_all = false ∧
    PrimStruct.chain4.is_connected_all = true :=
  ⟨by decide, (is_connected_iff_one_component [[0, 2], [1, 3]]).2.2.1 (by decide),
    by decide, by decide⟩

/-! ### `is_ring (int, int)` -/

theorem grow_seed_mem_iff (c : Nat → Nat → Bool) (fuel p : Nat) (pool : List Nat)
    (hfuel : pool.length + 1 ≤ fuel)
    (hsym : ∀ a b, a ∈ p :: pool → b ∈ p :: pool → c a b = c b a) (y : Nat) :
    y ∈ (grow c fuel [p] pool).1 ↔ Relation.ReflTransGen (Within c (p :: pool)) p y := by
  have hperm := grow_perm c fuel [p] pool
    (by simp only [List.length_cons, List.length_nil]; omega)
  have hclosed := grow_closed c fuel [p] pool
    (by simp only [List.length_cons, List.length_nil]; omega)
  have hp : p ∈ (grow c fuel [p] pool).1 := by
    obtain ⟨k, rfl⟩ : ∃ k, fuel = k + 1 := ⟨fuel - 1, by omega⟩
    simp [grow]
  have hfst : (grow c fuel [p] pool).1 ⊆ p :: pool := by
    intro z hz
    have := hperm.subset (List.mem_append_left _ hz)
    simpa using this
  have hsnd : (grow c fuel [p] pool).2 ⊆ p :: pool :=
    fun z hz => List.mem_cons_of_mem _ ((grow_snd_sublist c _ _ _).subset hz)
  constructor
  · intro hy
    exact grow_seed_connected c fuel p pool hsym p hp y hy
  · intro h
    induction h with
    | refl => exact hp
    | @tail u v _ huv ih =>
      have hv : v ∈ [p] ++ pool := by simpa using huv.2.1
      rcases List.mem_append.mp (hperm.symm.subset hv) with h1 | h2
      · exact h1
      · have hf := hclosed u ih v h2
        rw [hsym v u (hsnd h2) (hfst ih), huv.2.2] at hf
        exact absurd hf (by decide)

theorem bonded_symm (m : PrimStruct) (hs : m.Symmetric) {a b : Nat} (h : m.Bonded a b) :
    m.Bonded b a :=
  ⟨h.2.1, h.1, fun e => h.2.2.1 e.symm, by rw [← hs a b h.1 h.2.1]; exact h.2.2.2⟩

theorem graph_adj (m : PrimStruct) (hs : m.Symmetric) (a b : Nat) :
    m.graph.Adj a b ↔ m.Bonded a b := by
  simp only [PrimStruct.graph, SimpleGraph.fromRel_adj]
  constructor
  · rintro ⟨_, h | h⟩
    · exact h
    · exact bonded_symm m hs h
  · intro h
    exact ⟨h.2.2.1, Or.inl h⟩

theorem without_symm (m : PrimStruct) (hs : m.Symmetric) (i j : Nat) :
    ∀ a b, a ∈ List.range m.size → b ∈ List.range m.size →
      without m.conn i j a b = without m.conn i j b a := by
  intro a b ha hb
  simp only [without, conn_symm m hs a b ha hb]
  congr 2
  rw [Bool.or_comm, Bool.and_comm (b == i), Bool.and_comm (b == j)]

theorem ring_path_iff (m : PrimStruct) (hs : m.Symmetric) (i j a b : Nat) :
    Relation.ReflTransGen (Within (without m.conn i j) (List.range m.size)) a b ↔
      (m.graph \ SimpleGraph.fromEdgeSet {s(i, j)}).Reachable a b := by
  rw [SimpleGraph.reachable_iff_reflTransGen]
  have hadj : ∀ x y, (m.graph \ SimpleGraph.fromEdgeSet {s(i, j)}).Adj x y ↔
      m.Bonded x y ∧ ¬ ((x = i ∧ y = j) ∨ (x = j ∧ y = i)) := by
    intro x y
    rw [SimpleGraph.sdiff_adj, graph_adj m hs, SimpleGraph.fromEdgeSet_adj]
    constructor
    · rintro ⟨h1, h2⟩
      refine ⟨h1, fun h3 => h2 ⟨?_, h1.2.2.1⟩⟩
      simpa [Sym2.eq_iff] using h3
    · rintro ⟨h1, h2⟩
      refine ⟨h1, fun h3 => h2 ?_⟩
      simpa [Sym2.eq_iff] using h3.1
  constructor
  · intro h
    induction h with
    | refl => exact Relation.ReflTransGen.refl
    | @tail y z _ hyz ih =>
      by_cases e : y = z
      · subst e; exact ih
      · refine ih.tail ((hadj y z).mpr ?_)
        have hc := hyz.2.2
        simp only [without, Bool.and_eq_true, Bool.not_eq_true', Bool.or_eq_false_iff,
          Bool.and_eq_false_iff, beq_eq_false_iff_ne] at hc
        refine ⟨⟨List.mem_range.mp hyz.1, List.mem_range.mp hyz.2.1, e, ?_⟩, ?_⟩
        · simpa [PrimStruct.conn, PrimStruct.is_connected, e] using hc.1
        · rintro (⟨h1, h2⟩ | ⟨h1, h2⟩)
          · rcases hc.2.1 with h | h
            · exact h h1
            · exact h h2
          · rcases hc.2.2 with h | h
            · exact h h1
            · exact h h2
  · intro h
    refine Relation.ReflTransGen.mono ?_ h
    intro x y hxy
    have hb := ((hadj x y).mp hxy)
    refine ⟨List.mem_range.mpr hb.1.1, List.mem_range.mpr hb.1.2.1, ?_⟩
    have hne := hb.2
    have h1 : m.conn x y = true := by
      simp [PrimStruct.conn, PrimStruct.is_connected, hb.1.2.2.1, hb.1.2.2.2]
    simp only [without, h1, Bool.true_and, Bool.not_eq_true', Bool.or_eq_false_iff,
      Bool.and_eq_false_iff, beq_eq_false_iff_ne]
    constructor
    · by_contra hcon
      push_neg at hcon
      exact hne (Or.inl ⟨hcon.1, hcon.2⟩)
    · by_contra hcon
      push_neg at hcon
      exact hne (Or.inr ⟨hcon.1, hcon.2⟩)

theorem is_ring_iff_reachable (m : PrimStruct) (hs : m.Symmetric) (i j : Nat)
    (hi : i < m.size) :
    m.is_ring i j = true ↔ (m.graph \ SimpleGraph.fromEdgeSet {s(i, j)}).Reachable i j := by
  have hmem : i ∈ List.range m.size := List.mem_range.mpr hi
  have hsub1 : i :: (List.range m.size).erase i ⊆ List.range m.size :=
    (List.perm_cons_erase hmem).symm.subset
  have hsub2 : List.range m.size ⊆ i :: (List.range m.size).erase i :=
    (List.perm_cons_erase hmem).subset
  have hlen : ((List.range m.size).erase i).length + 1 ≤ m.size + 1 := by
    rw [List.length_erase_of_mem hmem, List.length_range]; omega
  rw [← ring_path_iff m hs i j i j]
  simp only [PrimStruct.is_ring, decide_eq_true_eq]
  rw [grow_seed_mem_iff (without m.conn i j) (m.size + 1) i _ hlen
    (fun a b ha hb => without_symm m hs i j a b (hsub1 ha) (hsub1 hb)) j]
  exact ⟨within_mono _ hsub1, within_mono _ hsub2⟩

theorem ringTail_symmetric : PrimStruct.ringTail.Symmetric := by
  intro a b _ _
  simp [PrimStruct.ringTail, add_comm, ne_comm]

theorem ringTail_bonded : PrimStruct.ringTail.Bonded 0 1 ∧ PrimStruct.ringTail.Bonded 0 3 := by
  refine ⟨⟨by decide, by decide, by decide, ?_⟩, ⟨by decide, by decide, by decide, ?_⟩⟩ <;>
    simp [PrimStruct.ringTail]

/-- C4: for bonded atoms `i != j` of a symmetric structure, `is_ring (i, j)` is
true if and only if `j` is reachable from `i` in the adjacency graph with the
edge `(i, j)` removed, that is, if and only if the bond lies on some cycle;
hence `is_ring (i, j) = is_ring (j, i)`, and `is_ring` is false for every bond
of an acyclic structure. -/
theorem is_ring_iff_on_cycle (m : PrimStruct) (hs : m.Symmetric) (i j : Nat)
    (hb : m.Bonded i j) :
    (m.is_ring i j = true ↔
      (m.graph \ SimpleGraph.fromEdgeSet {s(i, j)}).Reachable i j) ∧
    (m.is_ring i j = true ↔
      ∃ (u : Nat) (p : m.graph.Walk u u), p.IsCycle ∧ s(i, j) ∈ p.edges) ∧
    m.is_ring i j = m.is_ring j i ∧
    (m.graph.IsAcyclic → m.is_ring i j = false) := by
  have hadj : m.graph.Adj i j := (graph_adj m hs i j).mpr hb
  have h1 := is_ring_iff_reachable m hs i j hb.1
  have h2 := is_ring_iff_reachable m hs j i hb.2.1
  refine ⟨h1, ?_, ?_, ?_⟩
  · rw [h1, ← SimpleGraph.adj_and_reachable_delete_edges_iff_exists_cycle]
    exact ⟨fun h => ⟨hadj, h⟩, fun h => h.2⟩
  · rw [Bool.eq_iff_iff, h1, h2, Sym2.eq_swap]
    exact ⟨fun h => h.symm, fun h => h.symm⟩
  · intro hac
    have hbr := (SimpleGraph.isAcyclic_iff_forall_adj_isBridge.mp hac) hadj
    have hnr := (SimpleGraph.isBridge_iff.mp hbr).2
    cases hr : m.is_ring i j
    · rfl
    · exact absurd (h1.mp hr) hnr

theorem is_ring_iff_on_cycle_witness :
    PrimStruct.ringTail.is_ring 0 1 = true ∧
    PrimStruct.ringTail.is_ring 0 3 = false ∧
    (∃ (u : Nat) (p : PrimStruct.ringTail.graph.Walk u u),
      p.IsCycle ∧ s(0, 1) ∈ p.edges) ∧
    ¬ (PrimStruct.ringTail.graph \ SimpleGraph.fromEdgeSet {s(0, 3)}).Reachable 0 3 :=
  ⟨by decide, by decide,
    (is_ring_iff_on_cycle PrimStruct.ringTail ringTail_symmetric 0 1 ringTail_bonded.1).2.1.mp
      (by decide),
    fun h => absurd
      ((is_ring_iff_on_cycle PrimStruct.ringTail ringTail_symmetric 0 3 ringTail_bonded.2).1.mpr h)
      (by decide)⟩

/-! ### The traversal `span` -/

theorem span_snd_sublist (c : Nat → Nat → Bool) :
    ∀ (fuel : Nat) (stack : List (Nat × Nat)) (pool : List Nat),
      (span c fuel stack pool).2.Sublist pool := by
  intro fuel
  induction fuel with
  | zero => intro stack pool; simp [span]
  | succ n ih =>
    intro stack pool
    cases stack with
    | nil => simp [span]
    | cons e stack =>
      obtain ⟨a, r⟩ := e
      simp only [span]
      exact (ih _ _).trans (List.filter_sublist pool)

theorem span_fuel_step (c : Nat → Nat → Bool) (a n : Nat) (e : Nat × Nat)
    (stack : List (Nat × Nat)) (pool : List Nat)
    (h : (e :: stack).length + pool.length ≤ n + 1) :
    ((pool.filter (fun p => c p a)).map (fun p => (p, a)) ++ stack).length
      + (pool.filter (fun p => !c p a)).length ≤ n := by
  have hlen := filter_length_split (fun p => c p a) pool
  simp only [List.length_append, List.length_cons, List.length_map] at h ⊢
  omega

theorem span_perm (c : Nat → Nat → Bool) :
    ∀ (fuel : Nat) (stack : List (Nat × Nat)) (pool : List Nat),
      stack.length + pool.length ≤ fuel →
      ((span c fuel stack pool).1.map Prod.fst ++ (span c fuel stack pool).2).Perm
        (stack.map Prod.fst ++ pool) := by
  intro fuel
  induction fuel with
  | zero =>
    intro stack pool h
    have hq : stack = [] := List.length_eq_zero.mp (by omega)
    subst hq
    simp [span]
  | succ n ih =>
    intro stack pool h
    cases stack with
    | nil => simp [span]
    | cons e stack =>
      obtain ⟨a, r⟩ := e
      simp only [span, List.map_cons, List.cons_append]
      refine List.Perm.cons a ?_
      refine (ih _ _ (span_fuel_step c a n (a, r) stack pool h)).trans ?_
      simp only [List.map_append, List.map_map]
      have hid : (Prod.fst ∘ fun p => (p, a)) = (id : Nat → Nat) := rfl
      rw [hid, List.map_id, List.append_assoc]
      refine (List.perm_append_comm_assoc _ _ _).trans ?_
      exact List.Perm.append_left _ (List.filter_append_perm (fun p => c p a) pool)

theorem span_closed (c : Nat → Nat → Bool) :
    ∀ (fuel : Nat) (stack : List (Nat × Nat)) (pool : List Nat),
      stack.length + pool.length ≤ fuel →
      ∀ x ∈ (span c fuel stack pool).1.map Prod.fst, ∀ y ∈ (span c fuel stack pool).2,
        c y x = false := by
  intro fuel
  induction fuel with
  | zero => intro stack pool _ x hx; simp [span] at hx
  | succ n ih =>
    intro stack pool h
    cases stack with
    | nil => intro x hx; simp [span] at hx
    | cons e stack =>
      obtain ⟨a, r⟩ := e
      simp only [span, List.map_cons]
      intro x hx y hy
      rcases List.mem_cons.mp hx with rfl | hx
      · have hy' := (span_snd_sublist c n _ _).subset hy
        simpa using (List.mem_filter.mp hy').2
      · exact ih _ _ (span_fuel_step c a n (a, r) stack pool h) x hx y hy

theorem tree_mono (c : Nat → Nat → Bool) :
    ∀ (l : List (Nat × Nat)) (seen seen' : List Nat), seen ⊆ seen' →
      Tree c seen l → Tree c seen' l := by
  intro l
  induction l with
  | nil => intro _ _ _ _; trivial
  | cons e l ih =>
    obtain ⟨a, r⟩ := e
    intro seen seen' hsub h
    exact ⟨hsub h.1, h.2.1, ih _ _ (List.cons_subset_cons a hsub) h.2.2⟩

theorem span_tree (c : Nat → Nat → Bool) :
    ∀ (fuel : Nat) (stack : List (Nat × Nat)) (pool seen : List Nat),
      (∀ e ∈ stack, e.2 ∈ seen ∧ c e.1 e.2 = true) →
      Tree c seen (span c fuel stack pool).1 := by
  intro fuel
  induction fuel with
  | zero => intro stack pool seen _; simp [span, Tree]
  | succ n ih =>
    intro stack pool seen h
    cases stack with
    | nil => simp [span, Tree]
    | cons e stack =>
      obtain ⟨a, r⟩ := e
      simp only [span, Tree]
      have har := h (a, r) (List.mem_cons_self _ _)
      refine ⟨har.1, har.2, ih _ _ _ ?_⟩
      intro e he
      rcases List.mem_append.mp he with he | he
      · obtain ⟨p, hp, rfl⟩ := List.mem_map.mp he
        exact ⟨List.mem_cons_self _ _, (List.mem_filter.mp hp).2⟩
      · have := h e (List.mem_cons_of_mem _ he)
        exact ⟨List.mem_cons_of_mem _ this.1, this.2⟩

/-! ### The connectivity path -/

theorem foldl_choice (f : Nat → Nat → Nat) (hf : ∀ a b, f a b = a ∨ f a b = b) :
    ∀ (l : List Nat) (init : Nat), l.foldl f init = init ∨ l.foldl f init ∈ l := by
  intro l
  induction l with
  | nil => intro init; exact Or.inl rfl
  | cons x l ih =>
    intro init
    simp only [List.foldl_cons, List.mem_cons]
    rcases ih (f init x) with h | h
    · rcases hf init x with h' | h'
      · exact Or.inl (h.trans h')
      · exact Or.inr (Or.inl (h.trans h'))
    · exact Or.inr (Or.inr h)

theorem root_lt (m : PrimStruct) (h : 0 < m.size) : m.root < m.size := by
  have := foldl_choice (fun best a => if m.degree best < m.degree a then a else best)
    (fun a b => by by_cases hd : m.degree a < m.degree b <;> simp [hd]) (List.range m.size) 0
  rcases this with h0 | hmem
  · unfold PrimStruct.root; rw [h0]; exact h
  · exact List.mem_range.mp hmem

theorem connected_all_reach (m : PrimStruct) (hs : m.Symmetric)
    (hc : m.is_connected_all = true) :
    0 < m.size ∧ ∀ i j, i < m.size → j < m.size →
      Relation.ReflTransGen (Within m.conn (List.range m.size)) i j := by
  have hlen : m.connected_group.length = 1 := by
    simpa [PrimStruct.is_connected_all, PrimStruct.is_connected_of] using hc
  obtain ⟨G, hG⟩ := List.length_eq_one.mp hlen
  have hperm : m.connected_group.flatten.Perm (List.range m.size) :=
    groups_perm m.conn m.size (List.range m.size) (by simp)
  rw [hG] at hperm
  simp only [List.flatten_cons, List.flatten_nil, List.append_nil] at hperm
  constructor
  · cases hsz : m.size with
    | zero =>
      have : m.connected_group = [] := by simp [PrimStruct.connected_group, hsz, groups]
      rw [this] at hlen
      simp at hlen
    | succ k => exact Nat.succ_pos k
  · intro i j hi hj
    have hGm : G ∈ m.connected_group := by rw [hG]; exact List.mem_singleton_self G
    exact groups_connected m.conn m.size _ (conn_symm m hs) G hGm
      i (hperm.symm.subset (List.mem_range.mpr hi))
      j (hperm.symm.subset (List.mem_range.mpr hj))

theorem tree_split (c : Nat → Nat → Bool) :
    ∀ (l1 : List (Nat × Nat)) (e : Nat × Nat) (l2 : List (Nat × Nat)) (seen : List Nat),
      Tree c seen (l1 ++ e :: l2) →
      (e.2 ∈ seen ∨ e.2 ∈ l1.map Prod.fst) ∧ c e.1 e.2 = true := by
  intro l1
  induction l1 with
  | nil =>
    intro e l2 seen h
    obtain ⟨a, r⟩ := e
    exact ⟨Or.inl h.1, h.2.1⟩
  | cons x l1 ih =>
    intro e l2 seen h
    obtain ⟨a, r⟩ := x
    have h' := ih e l2 (a :: seen) h.2.2
    refine ⟨?_, h'.2⟩
    rcases h'.1 with h1 | h1
    · rcases List.mem_cons.mp h1 with h2 | h2
      · exact Or.inr (by simp [h2])
      · exact Or.inl h2
    · exact Or.inr (by simp only [List.map_cons]; exact List.mem_cons_of_mem _ h1)

theorem cpath_pairs_spec (m : PrimStruct) (hs : m.Symmetric)
    (hc : m.is_connected_all = true) :
    (m.root :: m.cpath_pairs.map Prod.fst).Perm (List.range m.size) ∧
    Tree m.conn [m.root] m.cpath_pairs := by
  obtain ⟨hpos, hreach⟩ := connected_all_reach m hs hc
  have hroot : m.root ∈ List.range m.size := List.mem_range.mpr (root_lt m hpos)
  have hlen : ([(m.root, m.root)] : List (Nat × Nat)).length
      + ((List.range m.size).erase m.root).length ≤ m.size + 1 := by
    rw [List.length_erase_of_mem hroot, List.length_range]
    simp only [List.length_cons, List.length_nil]; omega
  have hperm := span_perm m.conn (m.size + 1) [(m.root, m.root)] _ hlen
  have hclosed := span_closed m.conn (m.size + 1) [(m.root, m.root)] _ hlen
  have htree := span_tree m.conn (m.size + 1) [(m.root, m.root)]
    ((List.range m.size).erase m.root) [m.root]
    (by
      intro e he
      have : e = (m.root, m.root) := by simpa using he
      subst this
      exact ⟨List.mem_singleton_self _, by simp [PrimStruct.conn, PrimStruct.is_connected]⟩)
  have hS : (span m.conn (m.size + 1) [(m.root, m.root)]
      ((List.range m.size).erase m.root)).1 = (m.root, m.root) :: m.cpath_pairs := by
    simp [PrimStruct.cpath_pairs, span]
  have hperm' : ((span m.conn (m.size + 1) [(m.root, m.root)]
      ((List.range m.size).erase m.root)).1.map Prod.fst ++
      (span m.conn (m.size + 1) [(m.root, m.root)]
        ((List.range m.size).erase m.root)).2).Perm (List.range m.size) :=
    hperm.trans (by simpa using (List.perm_cons_erase hroot).symm)
  have hnodup := hperm'.nodup_iff.mpr (List.nodup_range m.size)
  have hcover : ∀ y, y < m.size → y ∈ (span m.conn (m.size + 1) [(m.root, m.root)]
      ((List.range m.size).erase m.root)).1.map Prod.fst := by
    intro y hy
    have hpath := hreach m.root y (root_lt m hpos) hy
    induction hpath with
    | refl => rw [hS]; simp
    | @tail u v _ huv ih =>
      have hu : u < m.size := List.mem_range.mp huv.1
      rcases List.mem_append.mp (hperm'.symm.subset huv.2.1) with h1 | h2
      · exact h1
      · have hf := hclosed u (ih hu) v h2
        rw [conn_symm m hs v u huv.2.1 huv.1, huv.2.2] at hf
        exact absurd hf (by decide)
  have hrest : (span m.conn (m.size + 1) [(m.root, m.root)]
      ((List.range m.size).erase m.root)).2 = [] := by
    apply List.eq_nil_iff_forall_not_mem.mpr
    intro y hy
    have hy' : y < m.size :=
      List.mem_range.mp (hperm'.subset (List.mem_append_right _ hy))
    exact (List.disjoint_of_nodup_append hnodup) (hcover y hy') hy
  rw [hrest, List.append_nil, hS] at hperm'
  rw [hS] at htree
  refine ⟨by simpa using hperm', ?_⟩
  exact tree_mono m.conn _ _ _ (by simp) htree.2.2

theorem cpath_pairs_edges (m : PrimStruct) (hs : m.Symmetric)
    (hc : m.is_connected_all = true) (l1 : List (Nat × Nat)) (e : Nat × Nat)
    (l2 : List (Nat × Nat)) (h : m.cpath_pairs = l1 ++ e :: l2) :
    (e.2 = m.root ∨ e.2 ∈ l1.map Prod.fst) ∧ m.Bonded e.1 e.2 := by
  obtain ⟨hperm, htree⟩ := cpath_pairs_spec m hs hc
  rw [h] at hperm htree
  have hsplit := tree_split m.conn l1 e l2 [m.root] htree
  have href : e.2 = m.root ∨ e.2 ∈ l1.map Prod.fst := by
    rcases hsplit.1 with h1 | h1
    · exact Or.inl (by simpa using h1)
    · exact Or.inr h1
  have hnodup := hperm.nodup_iff.mpr (List.nodup_range m.size)
  simp only [List.map_append, List.map_cons] at hperm hnodup
  have he1 : e.1 < m.size := List.mem_range.mp (hperm.subset (by simp))
  have he2 : e.2 < m.size := by
    apply List.mem_range.mp
    apply hperm.subset
    rcases href with h1 | h1
    · rw [h1]; exact List.mem_cons_self _ _
    · exact List.mem_cons_of_mem _ (List.mem_append_left _ h1)
  have hne : e.1 ≠ e.2 := by
    intro heq
    rw [List.nodup_cons, List.nodup_append] at hnodup
    rcases href with h1 | h1
    · exact hnodup.1 (by rw [← h1, ← heq]; simp)
    · exact hnodup.2.2.2 (by rw [← heq] at h1; exact h1) (List.mem_cons_self _ _)
  refine ⟨href, he1, he2, hne, ?_⟩
  have hcn := hsplit.2
  simpa [PrimStruct.conn, PrimStruct.is_connected, hne] using hcn

theorem make_eq_some (prim : PrimStruct) (resonance : List (Int → Int → Nat))
    (ms : MolecStruct) (hm : MolecStruct.make prim resonance = some ms) :
    prim.is_connected_all = true ∧ ms.prim = prim ∧ ms.resonance = resonance ∧
    ms.cpath = prim.cpath_pairs.map (fun e => ConRec.new (e.1 : Int) (e.2 : Int)) := by
  unfold MolecStruct.make at hm
  by_cases hc : prim.is_connected_all = true
  · rw [if_pos hc] at hm
    have := Option.some.inj hm
    subst this
    exact ⟨hc, rfl, rfl, rfl⟩
  · rw [if_neg hc] at hm
    exact absurd hm (by simp)

theorem chain4_symmetric : PrimStruct.chain4.Symmetric := by
  intro a b _ _
  simp [PrimStruct.chain4, or_comm]

/-- C7: for every successfully constructed `MolecStruct` the connectivity path,
read in order, is a rooted spanning tree: no atom index appears in two records,
every atom of the structure is the root or the atom of a record, each record's
reference atom `cref` is the root or the atom of an earlier record, and each
tree edge `(atom, cref)` is a bonded pair of the adjacency structure. -/
theorem cpath_spanning_tree (prim : PrimStruct) (resonance : List (Int → Int → Nat))
    (ms : MolecStruct) (hs : prim.Symmetric)
    (hm : MolecStruct.make prim resonance = some ms) :
    (ms.cpath.map ConRec.atom).Nodup ∧
    ms.prim.root < ms.prim.size ∧
    (ms.prim.root : Int) ∉ ms.cpath.map ConRec.atom ∧
    (∀ a : Nat, a < ms.prim.size →
      a = ms.prim.root ∨ (a : Int) ∈ ms.cpath.map ConRec.atom) ∧
    (∀ (l1 : List ConRec) (rec : ConRec) (l2 : List ConRec), ms.cpath = l1 ++ rec :: l2 →
      rec.cref = (ms.prim.root : Int) ∨ rec.cref ∈ l1.map ConRec.atom) ∧
    (∀ rec ∈ ms.cpath, ∃ a r : Nat,
      rec.atom = (a : Int) ∧ rec.cref = (r : Int) ∧ ms.prim.Bonded a r) := by
  obtain ⟨hc, hprim, -, hcp⟩ := make_eq_some prim resonance ms hm
  rw [hprim, hcp]
  obtain ⟨hperm, -⟩ := cpath_pairs_spec prim hs hc
  have hnodup := hperm.nodup_iff.mpr (List.nodup_range prim.size)
  have hatoms : (prim.cpath_pairs.map (fun e => ConRec.new (e.1 : Int) (e.2 : Int))).map
      ConRec.atom = (prim.cpath_pairs.map Prod.fst).map (fun a : Nat => (a : Int)) := by
    simp [List.map_map, Function.comp_def, ConRec.new]
  have hinj : Function.Injective (fun a : Nat => (a : Int)) := fun a b h => by simpa using h
  refine ⟨?_, ?_, ?_, ?_, ?_, ?_⟩
  · rw [hatoms]
    exact (List.nodup_cons.mp hnodup).2.map hinj
  · exact root_lt prim (connected_all_reach prim hs hc).1
  · rw [hatoms]
    intro hmem
    obtain ⟨a, ha, hae⟩ := List.mem_map.mp hmem
    have : a = prim.root := hinj hae
    subst this
    exact (List.nodup_cons.mp hnodup).1 ha
  · intro a ha
    rw [hatoms]
    rcases List.mem_cons.mp (hperm.symm.subset (List.mem_range.mpr ha)) with h | h
    · exact Or.inl h
    · exact Or.inr (List.mem_map.mpr ⟨a, h, rfl⟩)
  · intro l1 rec l2 hsplit
    obtain ⟨p1, p2, hp, hp1, hp2⟩ := List.map_eq_append_iff.mp hsplit
    obtain ⟨e, p3, hp3, hrec, -⟩ := List.map_eq_cons_iff.mp hp2
    rw [hp3] at hp
    have hedge := (cpath_pairs_edges prim hs hc p1 e p3 hp).1
    rw [← hrec, ← hp1]
    rcases hedge with h | h
    · exact Or.inl (by simp [ConRec.new, h])
    · refine Or.inr ?_
      obtain ⟨x, hx, hxe⟩ := List.mem_map.mp h
      simp only [List.map_map, List.mem_map, Function.comp_apply]
      exact ⟨x, hx, by simp [ConRec.new, hxe]⟩
  · intro rec hrec
    obtain ⟨e, he, rfl⟩ := List.mem_map.mp hrec
    obtain ⟨p1, p3, hp⟩ := List.append_of_mem he
    exact ⟨e.1, e.2, rfl, rfl, (cpath_pairs_edges prim hs hc p1 e p3 hp).2⟩

theorem chain4_make :
    MolecStruct.make PrimStruct.chain4 [PrimStruct.chain4.cell] = some MolecStruct.chain4 := by
  have h1 : PrimStruct.chain4.is_connected_all = true := by decide
  have h2 : PrimStruct.chain4.cpath_pairs = [(0, 1), (2, 1), (3, 2)] := by decide
  simp [MolecStruct.make, MolecStruct.chain4, h1, h2]

theorem cpath_spanning_tree_witness :
    MolecStruct.make PrimStruct.chain4 [PrimStruct.chain4.cell] = some MolecStruct.chain4 ∧
    (MolecStruct.chain4.cpath.map ConRec.atom).Nodup ∧
    (∀ a : Nat, a < 4 →
      a = MolecStruct.chain4.prim.root ∨ (a : Int) ∈ MolecStruct.chain4.cpath.map ConRec.atom) ∧
    (∀ rec ∈ MolecStruct.chain4.cpath, ∃ a r : Nat,
      rec.atom = (a : Int) ∧ rec.cref = (r : Int) ∧ MolecStruct.chain4.prim.Bonded a r) :=
  ⟨chain4_make,
    (cpath_spanning_tree PrimStruct.chain4 [PrimStruct.chain4.cell] MolecStruct.chain4
      chain4_symmetric chain4_make).1,
    (cpath_spanning_tree PrimStruct.chain4 [PrimStruct.chain4.cell] MolecStruct.chain4
      chain4_symmetric chain4_make).2.2.2.1,
    (cpath_spanning_tree PrimStruct.chain4 [PrimStruct.chain4.cell] MolecStruct.chain4
      chain4_symmetric chain4_make).2.2.2.2.2⟩

/-! ### Small cases -/

example : PrimStruct.chain4.root = 1 := by decide

example : PrimStruct.chain4.cpath_pairs = [(0, 1), (2, 1), (3, 2)] := by decide

example : grow (fun a b => a + 1 == b || b + 1 == a) 4 [0] [1, 2, 3] = ([0, 1, 2, 3], []) := by
  decide

example : groups (fun a b => (a, b) ∈ [(0, 2), (2, 0), (1, 3), (3, 1)]) 4 [0, 1, 2, 3]
    = [[0, 2], [1, 3]] := by
  decide

end X2z
